import Mathlib

/-! Shallow embedding of `src/stats.py`, a GitHub language-statistics README
    generator. Python strings are modelled as `List Char`, Python floats as
    exact rationals (`Rat`). -/

/-- The literal start marker `<!-- GITHUB_LANGUAGE_STATS_START -->`. -/
def startMarker : List Char := "<!-- GITHUB_LANGUAGE_STATS_START -->".data

/-- The literal end marker `<!-- GITHUB_LANGUAGE_STATS_END -->`. -/
def endMarker : List Char := "<!-- GITHUB_LANGUAGE_STATS_END -->".data

/-- `isLead n l` is true when `n` is an initial segment of `l`
    (the substring test at a fixed offset used by Python `str.find`). -/
def isLead : List Char → List Char → Bool
  | [], _ => true
  | _ :: _, [] => false
  | a :: as, b :: bs => if a = b then isLead as bs else false

/-- `occursAt n h i`: the needle `n` occurs in `h` starting at index `i`. -/
def occursAt (n h : List Char) (i : Nat) : Bool := isLead n (h.drop i)

/-- Index of the first occurrence of `n` in `h`: Python `str.find`, with
    `none` standing for "not found" (Python `-1`, equivalently `not in`). -/
def findSub (n : List Char) : List Char → Option Nat
  | [] => if isLead n [] then some 0 else none
  | c :: t => if isLead n (c :: t) then some 0 else (findSub n t).map (· + 1)

/-- The pure text transform inside `update_github_readme` (src/stats.py lines
    125-141): when both markers occur, splice the new content over the region
    from the first start marker through the first end marker; otherwise append
    a fresh marked section after a blank line. -/
def spliceReadme (current content : List Char) : List Char :=
  match findSub startMarker current, findSub endMarker current with
  | some start_idx, some e_idx =>
      current.take start_idx ++ startMarker ++ '\n' :: (content ++ '\n' ::
        (endMarker ++ current.drop (e_idx + endMarker.length)))
  | _, _ =>
      current ++ '\n' :: '\n' :: (startMarker ++ '\n' :: (content ++ '\n' :: endMarker))

/-- A repository as seen by the aggregator: its fork flag and its
    language→bytes listing in API iteration order. -/
structure Repo where
  fork : Bool
  languages : List (String × Nat)

/-- `language_bytes[language] += bytes_count` on an insertion-ordered tally
    (Python `Counter`, whose underlying dict preserves insertion order). -/
def addLang : List (String × Nat) → String → Nat → List (String × Nat)
  | [], lang, b => [(lang, b)]
  | (l, c) :: rest, lang, b =>
      if l = lang then (l, c + b) :: rest else (l, c) :: addLang rest lang b

/-- One iteration of the repo loop: forks are skipped, otherwise every
    language of the repo is accumulated into the tally. -/
def tallyRepo (t : List (String × Nat)) (r : Repo) : List (String × Nat) :=
  if r.fork then t
  else r.languages.foldl (fun acc p => addLang acc p.1 p.2) t

/-- The whole repo loop of `fetch_language_stats` (src/stats.py lines 40-48). -/
def buildTally (repos : List Repo) : List (String × Nat) :=
  repos.foldl tallyRepo []

def MAX_LANGUAGES : Nat := 10
def MIN_PERCENTAGE : Rat := 1
def BAR_LENGTH : Nat := 20

/-- `sum(language_bytes.values())` (src/stats.py line 51). -/
def totalBytes (t : List (String × Nat)) : Nat := (t.map (fun p => p.2)).sum

/-- The `language_percentages` comprehension (src/stats.py lines 55-58). -/
def languagePercentages (t : List (String × Nat)) : List (String × Nat × Rat) :=
  t.map (fun p => (p.1, p.2, ((p.2 : Rat) / (totalBytes t : Rat)) * 100))

/-- Stable insertion of an entry into a list sorted by descending percentage:
    the new entry goes after every entry whose percentage is ≥ its own. -/
def insertDesc (x : String × Nat × Rat) :
    List (String × Nat × Rat) → List (String × Nat × Rat)
  | [] => [x]
  | y :: ys => if x.2.2 ≤ y.2.2 then y :: insertDesc x ys else x :: y :: ys

/-- `language_percentages.sort(key=lambda x: x[2], reverse=True)`: Python's
    sort is stable, which insertion in input order reproduces. -/
def sortDesc (l : List (String × Nat × Rat)) : List (String × Nat × Rat) :=
  l.foldl (fun acc x => insertDesc x acc) []

/-- Sort descending, drop entries below `MIN_PERCENTAGE`, truncate to
    `MAX_LANGUAGES` (src/stats.py lines 61-69). -/
def rankedFrom (t : List (String × Nat)) : List (String × Nat × Rat) :=
  if totalBytes t = 0 then []
  else
    ((sortDesc (languagePercentages t)).filter
        (fun lang => decide (MIN_PERCENTAGE ≤ lang.2.2))).take MAX_LANGUAGES

/-- The pure part of `fetch_language_stats`, as a function of the listed
    repositories (src/stats.py lines 40-69). -/
def fetch_language_stats_core (repos : List Repo) : List (String × Nat × Rat) :=
  rankedFrom (buildTally repos)

/-- `generate_cli_bar` (src/stats.py lines 71-76): `math.floor` of
    `percentage / 100 * BAR_LENGTH` filled blocks, the remainder empty blocks.
    A negative count renders as the empty string, exactly as in Python. -/
def generate_cli_bar (percentage : Rat) : List Char :=
  let filled_blocks : Int := ⌊percentage / 100 * (BAR_LENGTH : Rat)⌋
  let empty_blocks : Int := (BAR_LENGTH : Int) - filled_blocks
  List.replicate filled_blocks.toNat '█' ++ List.replicate empty_blocks.toNat '░'

/-- Right-pad with spaces to the given width (Python `str.ljust`). -/
def ljustL (s : String) (w : Nat) : List Char :=
  s.data ++ List.replicate (w - s.length) ' '

/-- Round to the nearest integer, ties to even. -/
def roundHalfEven (q : Rat) : Int :=
  if Int.fract q < 1/2 then ⌊q⌋
  else if 1/2 < Int.fract q then ⌊q⌋ + 1
  else if ⌊q⌋ % 2 = 0 then ⌊q⌋ else ⌊q⌋ + 1

/-- One-decimal rendering of a percentage: Python `f"{p:.1f}"`, with the
    rounding applied to the exact rational value. -/
def formatRat1 (q : Rat) : List Char :=
  let t : Int := roundHalfEven (q * 10)
  let sgn : List Char := if t < 0 then ['-'] else []
  sgn ++ (toString (t.natAbs / 10)).data ++ '.' :: (toString (t.natAbs % 10)).data

/-- `generate_language_stats_markdown` (src/stats.py lines 78-104). -/
def generate_language_stats_markdown
    (language_stats : List (String × Nat × Rat)) : List Char :=
  if language_stats.isEmpty then "No language statistics available.".data
  else
    let max_language_length :=
      (language_stats.map (fun lang => lang.1.length)).foldl Nat.max 0
    let line := fun (e : String × Nat × Rat) =>
      ljustL e.1 max_language_length ++ ' ' :: ' ' ::
        (generate_cli_bar e.2.2 ++ ' ' :: ' ' :: (formatRat1 e.2.2 ++ ['%', '\n']))
    (language_stats.map line).foldl (fun acc l => acc ++ l) []

/-- Python truthiness of an optional string: `None` and `""` are falsy. -/
def strFalsy : Option String → Bool
  | none => true
  | some s => s.isEmpty

/-- `fetch_language_stats` with its configuration checks (src/stats.py lines
    27-34), parameterised by the external GitHub API collaborator
    `listRepos` (token → username → repositories). -/
def fetch_language_stats_run (token username : Option String)
    (listRepos : String → String → List Repo) :
    Except String (List (String × Nat × Rat)) :=
  if strFalsy token then
    .error "GitHub token not found. Set the GITHUB_TOKEN environment variable."
  else if strFalsy username then
    .error "GitHub username not found. Set the GITHUB_USERNAME environment variable."
  else
    .ok (fetch_language_stats_core (listRepos (token.getD "") (username.getD "")))

/-! ### Helper lemmas about the aggregator -/

theorem mem_insertDesc (x z : String × Nat × Rat) (l : List (String × Nat × Rat)) :
    z ∈ insertDesc x l ↔ z = x ∨ z ∈ l := by
  induction l with
  | nil => simp [insertDesc]
  | cons y ys ih =>
    unfold insertDesc
    by_cases hc : x.2.2 ≤ y.2.2
    · simp only [if_pos hc, List.mem_cons, ih]
      tauto
    · simp only [if_neg hc, List.mem_cons]

theorem pairwise_insertDesc (x : String × Nat × Rat) (l : List (String × Nat × Rat))
    (h : l.Pairwise (fun a b => b.2.2 ≤ a.2.2)) :
    (insertDesc x l).Pairwise (fun a b => b.2.2 ≤ a.2.2) := by
  induction l with
  | nil => simp [insertDesc]
  | cons y ys ih =>
    rcases List.pairwise_cons.mp h with ⟨hy, hys⟩
    unfold insertDesc
    by_cases hc : x.2.2 ≤ y.2.2
    · rw [if_pos hc]
      refine List.pairwise_cons.mpr ⟨?_, ih hys⟩
      intro z hz
      rcases (mem_insertDesc x z ys).mp hz with rfl | hz
      · exact hc
      · exact hy z hz
    · rw [if_neg hc]
      refine List.pairwise_cons.mpr ⟨?_, h⟩
      intro z hz
      rcases List.mem_cons.mp hz with rfl | hz
      · exact le_of_lt (lt_of_not_ge hc)
      · exact le_trans (hy z hz) (le_of_lt (lt_of_not_ge hc))

theorem pairwise_sortDesc (l : List (String × Nat × Rat)) :
    (sortDesc l).Pairwise (fun a b => b.2.2 ≤ a.2.2) := by
  have main : ∀ (l acc : List (String × Nat × Rat)),
      acc.Pairwise (fun a b => b.2.2 ≤ a.2.2) →
      (l.foldl (fun acc x => insertDesc x acc) acc).Pairwise (fun a b => b.2.2 ≤ a.2.2) := by
    intro l
    induction l with
    | nil => intro acc h; exact h
    | cons x xs ih => intro acc h; exact ih _ (pairwise_insertDesc x acc h)
  exact main l [] (by simp)

theorem mem_sortDesc (z : String × Nat × Rat) (l : List (String × Nat × Rat)) :
    z ∈ sortDesc l ↔ z ∈ l := by
  have main : ∀ (l acc : List (String × Nat × Rat)),
      z ∈ l.foldl (fun acc x => insertDesc x acc) acc ↔ z ∈ acc ∨ z ∈ l := by
    intro l
    induction l with
    | nil => intro acc; simp
    | cons x xs ih =>
      intro acc
      rw [List.foldl_cons, ih, mem_insertDesc]
      simp
      tauto
  rw [sortDesc, main l []]
  simp

theorem foldl_tally_filter (rs : List Repo) :
    ∀ acc : List (String × Nat),
      rs.foldl tallyRepo acc = (rs.filter (fun r => !r.fork)).foldl tallyRepo acc := by
  induction rs with
  | nil => intro acc; rfl
  | cons r rs ih =>
    intro acc
    by_cases hf : r.fork
    · have h1 : tallyRepo acc r = acc := by simp [tallyRepo, hf]
      simp [List.filter_cons, hf, h1, ih]
    · simp [List.filter_cons, hf, ih]

/-! ### Claim theorems for the aggregator, renderer and configuration checks -/

/-- Claim C7: repositories flagged as forks contribute nothing to the language
    tally: the aggregation over all repositories equals the aggregation over
    the non-fork repositories alone, and so does the final ranked result. -/
theorem claim_C7_forks_contribute_nothing (repos : List Repo) :
    buildTally repos = buildTally (repos.filter (fun r => !r.fork)) ∧
    fetch_language_stats_core repos =
      fetch_language_stats_core (repos.filter (fun r => !r.fork)) := by
  have h : buildTally repos = buildTally (repos.filter (fun r => !r.fork)) := by
    unfold buildTally
    exact foldl_tally_filter repos []
  exact ⟨h, by unfold fetch_language_stats_core; rw [h]⟩

/-- Claim C6: when the total byte count over all non-fork repositories is
    zero, the ranked result is the empty list (no division is performed), and
    the formatter maps the empty list to the fixed "no data" sentinel. -/
theorem claim_C6_zero_total (repos : List Repo)
    (h : totalBytes (buildTally repos) = 0) :
    fetch_language_stats_core repos = [] ∧
    generate_language_stats_markdown [] = "No language statistics available.".data := by
  constructor
  · unfold fetch_language_stats_core rankedFrom
    rw [if_pos h]
  · rfl

theorem claim_C6_witness :
    totalBytes (buildTally []) = 0 ∧
    (fetch_language_stats_core [] = [] ∧
      generate_language_stats_markdown [] = "No language statistics available.".data) :=
  ⟨by decide, claim_C6_zero_total [] (by decide)⟩

/-- Claim C4: over exact rational arithmetic, the percentages computed for all
    languages of a tally with positive total sum to exactly 100. -/
theorem claim_C4_percentages_sum_100 (t : List (String × Nat))
    (h : 0 < totalBytes t) :
    ((languagePercentages t).map (fun e => e.2.2)).sum = 100 := by
  have hT : ((totalBytes t : Rat)) ≠ 0 := by
    exact_mod_cast Nat.pos_iff_ne_zero.mp h
  unfold languagePercentages
  rw [List.map_map]
  have key : ∀ l : List (String × Nat),
      (l.map (fun p => ((p.2 : Rat) / (totalBytes t : Rat)) * 100)).sum
        = ((l.map (fun p => ((p.2 : Nat) : Rat))).sum / (totalBytes t : Rat)) * 100 := by
    intro l
    induction l with
    | nil => simp
    | cons a l ih =>
      simp only [List.map_cons, List.sum_cons, ih]
      ring
  have hcomp : ((fun e : String × Nat × Rat => e.2.2) ∘
      (fun p : String × Nat => (p.1, p.2, ((p.2 : Rat) / (totalBytes t : Rat)) * 100)))
        = fun p : String × Nat => ((p.2 : Rat) / (totalBytes t : Rat)) * 100 := rfl
  have hsum : ∀ l : List (String × Nat),
      ((l.map (fun p => ((p.2 : Nat) : Rat))).sum) = ((totalBytes l : Nat) : Rat) := by
    intro l
    unfold totalBytes
    induction l with
    | nil => simp
    | cons a l ih => simp [ih]
  rw [hcomp, key t, hsum t, div_self hT, one_mul]

theorem claim_C4_witness :
    0 < totalBytes [("Go", 300), ("Python", 700)] ∧
    ((languagePercentages [("Go", 300), ("Python", 700)]).map (fun e => e.2.2)).sum = 100 :=
  ⟨by decide, claim_C4_percentages_sum_100 [("Go", 300), ("Python", 700)] (by decide)⟩

/-- Claim C3: the ranked list is sorted by non-increasing percentage, every
    entry meets the minimum percentage, and the length is at most
    `MAX_LANGUAGES`; the empty list is an ordinary value of the function. -/
theorem claim_C3_ranked_list_shape (repos : List Repo) :
    (fetch_language_stats_core repos).Pairwise (fun a b => b.2.2 ≤ a.2.2) ∧
    (∀ e ∈ fetch_language_stats_core repos, MIN_PERCENTAGE ≤ e.2.2) ∧
    (fetch_language_stats_core repos).length ≤ MAX_LANGUAGES := by
  unfold fetch_language_stats_core rankedFrom
  by_cases h : totalBytes (buildTally repos) = 0
  · simp [h]
  · rw [if_neg h]
    refine ⟨?_, ?_, ?_⟩
    · have hsub :
          (((sortDesc (languagePercentages (buildTally repos))).filter
              (fun lang => decide (MIN_PERCENTAGE ≤ lang.2.2))).take MAX_LANGUAGES).Sublist
            (sortDesc (languagePercentages (buildTally repos))) :=
        (List.take_sublist _ _).trans (List.filter_sublist _)
      exact (pairwise_sortDesc _).sublist hsub
    · intro e he
      have hf := List.mem_filter.mp (List.mem_of_mem_take he)
      exact of_decide_eq_true hf.2
    · exact List.length_take_le _ _

theorem claim_C3_witness :
    ("Python", (700 : Nat), (70 : Rat)) ∈
      fetch_language_stats_core [⟨false, [("Go", 300), ("Python", 700)]⟩] ∧
    MIN_PERCENTAGE ≤ (("Python", (700 : Nat), (70 : Rat)) : String × Nat × Rat).2.2 := by
  have hmem : ("Python", (700 : Nat), (70 : Rat)) ∈
      fetch_language_stats_core [⟨false, [("Go", 300), ("Python", 700)]⟩] := by
    norm_num +decide [fetch_language_stats_core, buildTally, tallyRepo, addLang, rankedFrom,
      totalBytes, languagePercentages, sortDesc, insertDesc, MAX_LANGUAGES, MIN_PERCENTAGE,
      List.filter, List.take, List.foldl]
  exact ⟨hmem,
    (claim_C3_ranked_list_shape [⟨false, [("Go", 300), ("Python", 700)]⟩]).2.1 _ hmem⟩

/-- Claim C10: every percentage in the ranked result lies between
    `MIN_PERCENTAGE` and 100, so the bar renderer is only ever called on
    arguments inside its undocumented precondition range. -/
theorem claim_C10_percentage_range (repos : List Repo) :
    ∀ e ∈ fetch_language_stats_core repos,
      MIN_PERCENTAGE ≤ e.2.2 ∧ e.2.2 ≤ 100 := by
  intro e he
  unfold fetch_language_stats_core rankedFrom at he
  by_cases h : totalBytes (buildTally repos) = 0
  · rw [if_pos h] at he
    simp at he
  · rw [if_neg h] at he
    have hf := List.mem_filter.mp (List.mem_of_mem_take he)
    refine ⟨of_decide_eq_true hf.2, ?_⟩
    have hm : e ∈ languagePercentages (buildTally repos) := (mem_sortDesc _ _).mp hf.1
    unfold languagePercentages at hm
    rcases List.mem_map.mp hm with ⟨p, hp, rfl⟩
    have hTpos : 0 < totalBytes (buildTally repos) := Nat.pos_of_ne_zero h
    have hple : p.2 ≤ totalBytes (buildTally repos) :=
      List.le_sum_of_mem (List.mem_map_of_mem (fun q => q.2) hp)
    have hcast : ((p.2 : Nat) : Rat) ≤ ((totalBytes (buildTally repos) : Nat) : Rat) := by
      exact_mod_cast hple
    have hTQ : (0 : Rat) < ((totalBytes (buildTally repos) : Nat) : Rat) := by
      exact_mod_cast hTpos
    calc ((p.2 : Rat) / (totalBytes (buildTally repos) : Rat)) * 100
        ≤ 1 * 100 := by
          apply mul_le_mul_of_nonneg_right _ (by norm_num)
          exact (div_le_one hTQ).mpr hcast
      _ = 100 := one_mul _

theorem claim_C10_witness :
    ("Python", (700 : Nat), (70 : Rat)) ∈
      fetch_language_stats_core [⟨false, [("Go", 300), ("Python", 700)]⟩] ∧
    (MIN_PERCENTAGE ≤ (70 : Rat) ∧ (70 : Rat) ≤ 100) := by
  have hmem : ("Python", (700 : Nat), (70 : Rat)) ∈
      fetch_language_stats_core [⟨false, [("Go", 300), ("Python", 700)]⟩] := by
    norm_num +decide [fetch_language_stats_core, buildTally, tallyRepo, addLang, rankedFrom,
      totalBytes, languagePercentages, sortDesc, insertDesc, MAX_LANGUAGES, MIN_PERCENTAGE,
      List.filter, List.take, List.foldl]
  exact ⟨hmem,
    claim_C10_percentage_range [⟨false, [("Go", 300), ("Python", 700)]⟩] _ hmem⟩

/-- Claim C5: for a percentage in `[0, 100]` the bar is exactly `BAR_LENGTH`
    characters: `⌊percentage / 100 * BAR_LENGTH⌋` filled blocks followed by
    empty blocks; at 0 it is all empty and at 100 all filled. -/
theorem claim_C5_bar_shape (p : Rat) (h0 : 0 ≤ p) (h1 : p ≤ 100) :
    (generate_cli_bar p).length = BAR_LENGTH ∧
    generate_cli_bar p =
      List.replicate (⌊p / 100 * (BAR_LENGTH : Rat)⌋.toNat) '█' ++
        List.replicate (BAR_LENGTH - ⌊p / 100 * (BAR_LENGTH : Rat)⌋.toNat) '░' ∧
    generate_cli_bar 0 = List.replicate BAR_LENGTH '░' ∧
    generate_cli_bar 100 = List.replicate BAR_LENGTH '█' := by
  have hf0 : 0 ≤ ⌊p / 100 * (BAR_LENGTH : Rat)⌋ := by
    apply Int.le_floor.mpr
    push_cast
    apply mul_nonneg (div_nonneg h0 (by norm_num))
    norm_num [BAR_LENGTH]
  have hf20 : ⌊p / 100 * (BAR_LENGTH : Rat)⌋ ≤ (BAR_LENGTH : Int) := by
    have hle : p / 100 * (BAR_LENGTH : Rat) ≤ (BAR_LENGTH : Rat) := by
      have h2 : p / 100 ≤ 1 := (div_le_one (by norm_num)).mpr h1
      calc p / 100 * (BAR_LENGTH : Rat) ≤ 1 * (BAR_LENGTH : Rat) := by
            apply mul_le_mul_of_nonneg_right h2
            norm_num [BAR_LENGTH]
        _ = (BAR_LENGTH : Rat) := one_mul _
    calc ⌊p / 100 * (BAR_LENGTH : Rat)⌋ ≤ ⌊(BAR_LENGTH : Rat)⌋ := Int.floor_le_floor hle
      _ = (BAR_LENGTH : Int) := by norm_num [BAR_LENGTH]
  refine ⟨?_, ?_, ?_, ?_⟩
  · simp only [generate_cli_bar, List.length_append, List.length_replicate]
    omega
  · simp only [generate_cli_bar]
    congr 1
    congr 1
    omega
  · norm_num [generate_cli_bar, BAR_LENGTH]
    decide
  · norm_num [generate_cli_bar, BAR_LENGTH]
    decide

theorem claim_C5_witness :
    (0 ≤ (70 : Rat) ∧ (70 : Rat) ≤ 100) ∧ (generate_cli_bar 70).length = BAR_LENGTH :=
  ⟨⟨by decide, by decide⟩, (claim_C5_bar_shape 70 (by decide) (by decide)).1⟩

/-- Claim C9: with the credential token or the account identifier missing (or
    empty, which Python treats as missing), the run fails immediately with an
    error and its outcome is independent of the external GitHub API
    collaborator, i.e. no API interaction can influence or occur in it. -/
theorem claim_C9_missing_config_aborts (token username : Option String)
    (h : strFalsy token = true ∨ strFalsy username = true)
    (f g : String → String → List Repo) :
    fetch_language_stats_run token username f = fetch_language_stats_run token username g ∧
    ∃ msg, fetch_language_stats_run token username f = Except.error msg := by
  unfold fetch_language_stats_run
  rcases h with h | h
  · rw [if_pos h, if_pos h]
    exact ⟨rfl, _, rfl⟩
  · by_cases h1 : strFalsy token = true
    · rw [if_pos h1, if_pos h1]
      exact ⟨rfl, _, rfl⟩
    · rw [if_neg h1, if_neg h1, if_pos h, if_pos h]
      exact ⟨rfl, _, rfl⟩

theorem claim_C9_witness :
    (strFalsy none = true ∨ strFalsy (some "user") = true) ∧
    (fetch_language_stats_run none (some "user") (fun _ _ => []) =
        fetch_language_stats_run none (some "user") (fun _ _ => [⟨false, [("A", 5)]⟩]) ∧
      ∃ msg, fetch_language_stats_run none (some "user") (fun _ _ => []) =
        Except.error msg) :=
  ⟨Or.inl (by decide),
    claim_C9_missing_config_aborts none (some "user") (Or.inl (by decide))
      (fun _ _ => []) (fun _ _ => [⟨false, [("A", 5)]⟩])⟩

/-! ### Claim theorems for the splicer -/

/-- Claim C1: when both markers occur in the document and the first start
    marker precedes the first end marker, the splicer keeps every character
    before the first start marker and after the first end marker and replaces
    the region from the first start marker through the first end marker
    (markers inclusive) by the marked new content block. -/
theorem claim_C1_splice_replaces (doc content : List Char) (si ei : Nat)
    (hs : findSub startMarker doc = some si)
    (he : findSub endMarker doc = some ei)
    (_hord : si < ei) :
    spliceReadme doc content =
      doc.take si ++ startMarker ++ '\n' :: (content ++ '\n' ::
        (endMarker ++ doc.drop (ei + endMarker.length))) := by
  unfold spliceReadme
  rw [hs, he]

theorem claim_C1_witness :
    (findSub startMarker ('A' :: (startMarker ++ 'B' :: (endMarker ++ ['C']))) = some 1 ∧
      findSub endMarker ('A' :: (startMarker ++ 'B' :: (endMarker ++ ['C']))) = some 38 ∧
      1 < 38) ∧
    spliceReadme ('A' :: (startMarker ++ 'B' :: (endMarker ++ ['C']))) ['X'] =
      ('A' :: (startMarker ++ 'B' :: (endMarker ++ ['C']))).take 1 ++ startMarker ++
        '\n' :: (['X'] ++ '\n' :: (endMarker ++
          ('A' :: (startMarker ++ 'B' :: (endMarker ++ ['C']))).drop (38 + endMarker.length))) :=
  ⟨⟨by decide, by decide, by decide⟩,
    claim_C1_splice_replaces _ ['X'] 1 38 (by decide) (by decide) (by decide)⟩

/-- Claim C8: when at least one marker is absent from the document, the
    splicer leaves the whole document in place and appends exactly one new
    marked section after a blank line: blank line, start marker, content,
    end marker. -/
theorem claim_C8_splice_appends (doc content : List Char)
    (h : findSub startMarker doc = none ∨ findSub endMarker doc = none) :
    spliceReadme doc content =
      doc ++ '\n' :: '\n' :: (startMarker ++ '\n' :: (content ++ '\n' :: endMarker)) := by
  rcases h with h | h
  · cases h2 : findSub endMarker doc <;> simp [spliceReadme, h, h2]
  · cases h2 : findSub startMarker doc <;> simp [spliceReadme, h2, h]

theorem claim_C8_witness :
    (findSub startMarker ['A', 'B'] = none ∨ findSub endMarker ['A', 'B'] = none) ∧
    spliceReadme ['A', 'B'] ['X'] =
      ['A', 'B'] ++ '\n' :: '\n' :: (startMarker ++ '\n' :: (['X'] ++ '\n' :: endMarker)) :=
  ⟨Or.inl (by decide), claim_C8_splice_appends ['A', 'B'] ['X'] (Or.inl (by decide))⟩

/-! ### Helper lemmas about substring search -/

theorem isLead_iff (n l : List Char) : isLead n l = true ↔ ∃ t, l = n ++ t := by
  induction n generalizing l with
  | nil => simp [isLead]
  | cons a as ih =>
    cases l with
    | nil =>
      constructor
      · intro hfalse
        cases hfalse
      · rintro ⟨t, ht⟩
        cases ht
    | cons b bs =>
      constructor
      · intro h
        unfold isLead at h
        by_cases hab : a = b
        · subst hab
          rw [if_pos rfl] at h
          rcases (ih bs).mp h with ⟨t, rfl⟩
          exact ⟨t, rfl⟩
        · rw [if_neg hab] at h
          cases h
      · rintro ⟨t, ht⟩
        rw [List.cons_append] at ht
        injection ht with h1 h2
        subst h1
        unfold isLead
        rw [if_pos rfl]
        exact (ih bs).mpr ⟨t, h2⟩

theorem occursAt_bound {n h : List Char} {i : Nat} (hn : n ≠ [])
    (hocc : occursAt n h i = true) : i + n.length ≤ h.length := by
  rcases (isLead_iff _ _).mp hocc with ⟨t, ht⟩
  have hlen : h.length - i = n.length + t.length := by
    rw [← List.length_drop, ht, List.length_append]
  have hpos : 0 < n.length := List.length_pos.mpr hn
  omega

theorem occursAt_getElem {n h : List Char} {i : Nat} (hocc : occursAt n h i = true)
    {k : Nat} (hk : k < n.length) : h[i + k]? = n[k]? := by
  rcases (isLead_iff _ _).mp hocc with ⟨t, ht⟩
  have h1 : h[i + k]? = (h.drop i)[k]? := (List.getElem?_drop h i k).symm
  rw [h1, ht, List.getElem?_append, if_pos hk]

theorem occursAt_char {n h : List Char} {i p : Nat} (hocc : occursAt n h i = true)
    (hip : i ≤ p) (hpn : p < i + n.length) : h[p]? = n[p - i]? := by
  have hk := occursAt_getElem hocc (k := p - i) (by omega)
  rwa [show i + (p - i) = p from by omega] at hk

theorem occursAt_append_right {n b : List Char} (a : List Char) {j : Nat}
    (h : occursAt n b j = true) : occursAt n (a ++ b) (a.length + j) = true := by
  unfold occursAt at h ⊢
  rw [List.drop_append_eq_append_drop, List.drop_eq_nil_of_le (by omega),
    show a.length + j - a.length = j from by omega]
  simpa using h

theorem occursAt_append_elim_right {n a b : List Char} {i : Nat}
    (hi : a.length ≤ i) (h : occursAt n (a ++ b) i = true) :
    occursAt n b (i - a.length) = true := by
  unfold occursAt at h ⊢
  rw [List.drop_append_eq_append_drop, List.drop_eq_nil_of_le hi] at h
  simpa using h

theorem isLead_of_append {n a : List Char} (b : List Char) (hle : n.length ≤ a.length)
    (h : isLead n (a ++ b) = true) : isLead n a = true := by
  induction n generalizing a with
  | nil => simp [isLead]
  | cons x xs ih =>
    cases a with
    | nil => simp at hle
    | cons y ys =>
      rw [List.cons_append] at h
      unfold isLead at h ⊢
      by_cases hxy : x = y
      · rw [if_pos hxy] at h ⊢
        exact ih (by simpa using hle) h
      · rw [if_neg hxy] at h
        cases h

theorem occursAt_append_elim_left {n a b : List Char} {i : Nat}
    (hle : i + n.length ≤ a.length) (h : occursAt n (a ++ b) i = true) :
    occursAt n a i = true := by
  unfold occursAt at h ⊢
  rw [List.drop_append_eq_append_drop, show i - a.length = 0 from by omega,
    List.drop_zero] at h
  exact isLead_of_append b (by rw [List.length_drop]; omega) h

theorem occursAt_take_elim {n l : List Char} {m i : Nat}
    (h : occursAt n (l.take m) i = true) : occursAt n l i = true := by
  rcases (isLead_iff _ _).mp h with ⟨t, ht⟩
  apply (isLead_iff _ _).mpr
  refine ⟨t ++ (l.drop m).drop (i - (l.take m).length), ?_⟩
  conv_lhs => rw [← List.take_append_drop m l]
  rw [List.drop_append_eq_append_drop, ht, List.append_assoc]

theorem findSub_some {n h : List Char} {i : Nat} (hf : findSub n h = some i) :
    occursAt n h i = true ∧ ∀ j, j < i → occursAt n h j = false := by
  induction h generalizing i with
  | nil =>
    unfold findSub at hf
    split at hf
    case isTrue hl =>
      injection hf with h1
      subst h1
      exact ⟨hl, fun j hj => absurd hj (Nat.not_lt_zero j)⟩
    case isFalse hl => cases hf
  | cons c t ih =>
    unfold findSub at hf
    split at hf
    case isTrue hl =>
      injection hf with h1
      subst h1
      exact ⟨hl, fun j hj => absurd hj (Nat.not_lt_zero j)⟩
    case isFalse hl =>
      rcases Option.map_eq_some'.mp hf with ⟨i', hfi, rfl⟩
      rcases ih hfi with ⟨hocc, hmin⟩
      refine ⟨hocc, ?_⟩
      intro j hj
      cases j with
      | zero => exact Bool.eq_false_iff.mpr hl
      | succ j' => exact hmin j' (by omega)

theorem findSub_none {n h : List Char} (hf : findSub n h = none) :
    ∀ i, occursAt n h i = false := by
  induction h with
  | nil =>
    intro i
    unfold findSub at hf
    split at hf
    case isTrue hl => cases hf
    case isFalse hl =>
      show isLead n (List.drop i []) = false
      rw [List.drop_nil]
      exact Bool.eq_false_iff.mpr hl
  | cons c t ih =>
    intro i
    unfold findSub at hf
    split at hf
    case isTrue hl => cases hf
    case isFalse hl =>
      have h2 : findSub n t = none := by
        cases hcase : findSub n t
        · rfl
        · rw [hcase] at hf
          cases hf
      cases i with
      | zero => exact Bool.eq_false_iff.mpr hl
      | succ j => exact ih h2 j

theorem findSub_unique {n h : List Char} {i : Nat} (hocc : occursAt n h i = true)
    (hmin : ∀ j, j < i → occursAt n h j = false) : findSub n h = some i := by
  cases hcase : findSub n h with
  | none =>
    have hi := findSub_none hcase i
    rw [hocc] at hi
    cases hi
  | some j =>
    rcases findSub_some hcase with ⟨hj, hjmin⟩
    rcases Nat.lt_trichotomy i j with hlt | heq | hgt
    · have hbad := hjmin i hlt
      rw [hocc] at hbad
      cases hbad
    · rw [heq]
    · have hbad := hmin j hgt
      rw [hj] at hbad
      cases hbad

/-- In a text of the shape `A ++ (n ++ R)` where the needle `n` starts with a
    character `c` that occurs nowhere else in `n` and `A` contains no
    occurrence of `n`, the first occurrence of `n` is exactly at `A.length`. -/
theorem findSub_concat_first {n A R : List Char} {c : Char}
    (h0 : n[0]? = some c)
    (hu : ∀ j, j < n.length → n[j]? = some c → j = 0)
    (hA : ∀ i, occursAt n A i = false) :
    findSub n (A ++ (n ++ R)) = some A.length := by
  have hn : n ≠ [] := by
    intro hnil
    rw [hnil] at h0
    cases h0
  have hnpos : 0 < n.length := List.length_pos.mpr hn
  apply findSub_unique
  · have h1 : occursAt n (n ++ R) 0 = true := (isLead_iff _ _).mpr ⟨R, rfl⟩
    have h2 := occursAt_append_right A h1
    rwa [Nat.add_zero] at h2
  · intro j hj
    cases hcase : occursAt n (A ++ (n ++ R)) j
    · rfl
    exfalso
    by_cases hin : j + n.length ≤ A.length
    · have hocc := occursAt_append_elim_left hin hcase
      rw [hA j] at hocc
      cases hocc
    · have hchar := occursAt_char hcase (p := A.length) (by omega) (by omega)
      have hAc : (A ++ (n ++ R))[A.length]? = some c := by
        rw [List.getElem?_append_right (le_refl A.length), Nat.sub_self,
          List.getElem?_append, if_pos hnpos]
        exact h0
      rw [hAc] at hchar
      have hj0 := hu (A.length - j) (by omega) hchar.symm
      omega

/-! ### Decidable facts about the two concrete markers -/

theorem em_ne_nil : endMarker ≠ [] := by decide

theorem sm_head : startMarker[0]? = some '<' := by decide

theorem em_head : endMarker[0]? = some '<' := by decide

theorem sm_lt_at_zero_only :
    ∀ j, j < startMarker.length → startMarker[j]? = some '<' → j = 0 := by decide

theorem em_lt_at_zero_only :
    ∀ j, j < endMarker.length → endMarker[j]? = some '<' → j = 0 := by decide

theorem sm_no_nl : ∀ j, j < startMarker.length → startMarker[j]? ≠ some '\n' := by decide

theorem em_no_nl : ∀ j, j < endMarker.length → endMarker[j]? ≠ some '\n' := by decide

theorem em_not_lead_sm : isLead endMarker startMarker = false := by decide

theorem em_le_sm : endMarker.length ≤ startMarker.length := by decide

/-- No occurrence of the end marker can start before the end marker of a
    freshly spliced section `P ++ startMarker ++ "\n" ++ C ++ "\n"`, provided
    neither the prefix `P` nor the content `C` contains one. -/
theorem no_end_in_middle (P C : List Char)
    (hEP : ∀ i, occursAt endMarker P i = false)
    (hEC : ∀ i, occursAt endMarker C i = false) :
    ∀ i, occursAt endMarker (P ++ (startMarker ++ ('\n' :: (C ++ ['\n'])))) i = false := by
  intro i
  cases hcase : occursAt endMarker (P ++ (startMarker ++ ('\n' :: (C ++ ['\n'])))) i
  · rfl
  exfalso
  have hbound := occursAt_bound em_ne_nil hcase
  have hAlen : (P ++ (startMarker ++ ('\n' :: (C ++ ['\n'])))).length
      = P.length + startMarker.length + 1 + C.length + 1 := by
    simp [List.length_append]
    omega
  rw [hAlen] at hbound
  have hEpos : 0 < endMarker.length := by decide
  have hE2 : 2 ≤ endMarker.length := by decide
  have hELle : endMarker.length ≤ startMarker.length := em_le_sm
  have hchar0 : (P ++ (startMarker ++ ('\n' :: (C ++ ['\n']))))[i]? = some '<' := by
    have hk := occursAt_getElem hcase (k := 0) hEpos
    rw [Nat.add_zero] at hk
    rw [hk]
    exact em_head
  rcases Nat.lt_trichotomy i P.length with hiP | hiP | hiP
  · by_cases hin : i + endMarker.length ≤ P.length
    · have hocc := occursAt_append_elim_left hin hcase
      rw [hEP i] at hocc
      cases hocc
    · have hchar := occursAt_char hcase (p := P.length) (by omega) (by omega)
      have hPc : (P ++ (startMarker ++ ('\n' :: (C ++ ['\n']))))[P.length]? = some '<' := by
        rw [List.getElem?_append_right (le_refl P.length), Nat.sub_self,
          List.getElem?_append, if_pos (by decide : 0 < startMarker.length)]
        exact sm_head
      rw [hPc] at hchar
      have := em_lt_at_zero_only (P.length - i) (by omega) hchar.symm
      omega
  · have hocc := occursAt_append_elim_right (le_of_eq hiP.symm) hcase
    rw [show i - P.length = 0 from by omega] at hocc
    have hlead : isLead endMarker (startMarker ++ ('\n' :: (C ++ ['\n']))) = true := hocc
    have hbad := isLead_of_append ('\n' :: (C ++ ['\n'])) hELle hlead
    rw [em_not_lead_sm] at hbad
    cases hbad
  · rcases Nat.lt_trichotomy i (P.length + startMarker.length) with hiS | hiS | hiS
    · have hSc : (P ++ (startMarker ++ ('\n' :: (C ++ ['\n']))))[i]?
          = startMarker[i - P.length]? := by
        rw [List.getElem?_append_right (by omega), List.getElem?_append, if_pos (by omega)]
      rw [hSc] at hchar0
      have := sm_lt_at_zero_only (i - P.length) (by omega) hchar0
      omega
    · have hnl : (P ++ (startMarker ++ ('\n' :: (C ++ ['\n']))))[i]? = some '\n' := by
        rw [List.getElem?_append_right (by omega),
          List.getElem?_append_right (by omega : startMarker.length ≤ i - P.length),
          show i - P.length - startMarker.length = 0 from by omega]
        simp
      rw [hnl] at hchar0
      simp at hchar0
    · by_cases hin : i + endMarker.length ≤ P.length + startMarker.length + 1 + C.length
      · have hassoc : (P ++ (startMarker ++ ('\n' :: (C ++ ['\n']))))
            = (P ++ (startMarker ++ ['\n'])) ++ (C ++ ['\n']) := by
          simp [List.append_assoc]
        rw [hassoc] at hcase
        have hBlen : (P ++ (startMarker ++ ['\n'])).length
            = P.length + startMarker.length + 1 := by
          simp [List.length_append]
          omega
        have hocc := occursAt_append_elim_right (by rw [hBlen]; omega) hcase
        rw [hBlen] at hocc
        have hocc2 := occursAt_append_elim_left (by omega) hocc
        rw [hEC _] at hocc2
        cases hocc2
      · have hDlen : (P ++ (startMarker ++ ('\n' :: C))).length
            = P.length + startMarker.length + 1 + C.length := by
          simp [List.length_append]
          omega
        have hq : (P ++ (startMarker ++ ('\n' :: (C ++ ['\n']))))[P.length +
            startMarker.length + 1 + C.length]? = some '\n' := by
          have hassoc : (P ++ (startMarker ++ ('\n' :: (C ++ ['\n']))))
              = (P ++ (startMarker ++ ('\n' :: C))) ++ ['\n'] := by
            simp [List.append_assoc]
          rw [hassoc, List.getElem?_append_right (le_of_eq hDlen),
            show P.length + startMarker.length + 1 + C.length -
              (P ++ (startMarker ++ ('\n' :: C))).length = 0 from by rw [hDlen]; omega]
          rfl
        have hchar := occursAt_char hcase
          (p := P.length + startMarker.length + 1 + C.length) (by omega) (by omega)
        rw [hq] at hchar
        exact em_no_nl _ (by omega) hchar.symm

/-- A document of the shape `P ++ startMarker ++ "\n" ++ C ++ "\n" ++
    endMarker ++ Q` is a fixed point of splicing `C`, provided `P` contains
    neither marker and `C` contains no end marker. -/
theorem splice_marked_fixed (P C Q : List Char)
    (hSP : ∀ i, occursAt startMarker P i = false)
    (hEP : ∀ i, occursAt endMarker P i = false)
    (hEC : ∀ i, occursAt endMarker C i = false) :
    spliceReadme (P ++ (startMarker ++ ('\n' :: (C ++ ('\n' :: (endMarker ++ Q)))))) C
      = P ++ (startMarker ++ ('\n' :: (C ++ ('\n' :: (endMarker ++ Q))))) := by
  have hfS : findSub startMarker
      (P ++ (startMarker ++ ('\n' :: (C ++ ('\n' :: (endMarker ++ Q)))))) = some P.length :=
    findSub_concat_first sm_head sm_lt_at_zero_only hSP
  have hfE : findSub endMarker
      (P ++ (startMarker ++ ('\n' :: (C ++ ('\n' :: (endMarker ++ Q)))))) =
        some (P.length + startMarker.length + 1 + C.length + 1) := by
    have hassoc : P ++ (startMarker ++ ('\n' :: (C ++ ('\n' :: (endMarker ++ Q)))))
        = (P ++ (startMarker ++ ('\n' :: (C ++ ['\n'])))) ++ (endMarker ++ Q) := by
      simp [List.append_assoc]
    rw [hassoc,
      findSub_concat_first em_head em_lt_at_zero_only (no_end_in_middle P C hEP hEC)]
    congr 1
    simp [List.length_append]
    omega
  have htake :
      (P ++ (startMarker ++ ('\n' :: (C ++ ('\n' :: (endMarker ++ Q)))))).take P.length
        = P := List.take_left P _
  have hdrop : (P ++ (startMarker ++ ('\n' :: (C ++ ('\n' :: (endMarker ++ Q)))))).drop
      (P.length + startMarker.length + 1 + C.length + 1 + endMarker.length) = Q := by
    have hassoc2 : P ++ (startMarker ++ ('\n' :: (C ++ ('\n' :: (endMarker ++ Q)))))
        = (P ++ (startMarker ++ ('\n' :: (C ++ ('\n' :: endMarker))))) ++ Q := by
      simp [List.append_assoc]
    have hlen2 : (P ++ (startMarker ++ ('\n' :: (C ++ ('\n' :: endMarker))))).length
        = P.length + startMarker.length + 1 + C.length + 1 + endMarker.length := by
      simp [List.length_append]
      omega
    rw [hassoc2, ← hlen2, List.drop_left]
  unfold spliceReadme
  rw [hfS, hfE]
  dsimp only
  rw [htake, hdrop]
  simp [List.append_assoc]

/-- A needle without newlines that does not occur in `d` does not occur in
    `d` extended by a blank line. -/
theorem occursAt_append_nl2 {n : List Char} (d : List Char)
    (hn : n ≠ [])
    (hnl : ∀ j, j < n.length → n[j]? ≠ some '\n')
    (hd : ∀ i, occursAt n d i = false) :
    ∀ i, occursAt n (d ++ ['\n', '\n']) i = false := by
  intro i
  cases hcase : occursAt n (d ++ ['\n', '\n']) i
  · rfl
  exfalso
  have hbound := occursAt_bound hn hcase
  have hlen2 : (d ++ ['\n', '\n']).length = d.length + 2 := by simp
  rw [hlen2] at hbound
  have hnpos : 0 < n.length := List.length_pos.mpr hn
  have hApnl : ∀ p, d.length ≤ p → p < d.length + 2 →
      (d ++ ['\n', '\n'])[p]? = some '\n' := by
    intro p h1 h2
    rw [List.getElem?_append_right h1]
    have hcases : p - d.length = 0 ∨ p - d.length = 1 := by omega
    rcases hcases with h | h <;> rw [h] <;> decide
  by_cases hin : i + n.length ≤ d.length
  · have hocc := occursAt_append_elim_left hin hcase
    rw [hd i] at hocc
    cases hocc
  · by_cases hi : i ≤ d.length
    · have hchar := occursAt_char hcase (p := d.length) hi (by omega)
      rw [hApnl d.length (le_refl _) (by omega)] at hchar
      exact hnl (d.length - i) (by omega) hchar.symm
    · have hchar := occursAt_getElem hcase (k := 0) hnpos
      rw [Nat.add_zero] at hchar
      rw [hApnl i (by omega) (by omega)] at hchar
      exact hnl 0 hnpos hchar.symm

/-- Claim C2 counterexample: splicing is not idempotent for every content
    block. With the empty document and the end marker itself as content, the
    second application cuts at the end marker inside the content and appends
    the tail again, so the two results differ. -/
theorem claim_C2_counterexample :
    ¬ (spliceReadme (spliceReadme [] endMarker) endMarker = spliceReadme [] endMarker) := by
  decide

/-- Claim C2, amended: splicing identical content twice equals splicing it
    once, provided the content does not contain the end marker and the
    document either contains no marker at all or contains both markers with
    the first start marker strictly before the first end marker. -/
theorem claim_C2_amended_idempotent (doc C : List Char)
    (hC : findSub endMarker C = none)
    (hdoc : (findSub startMarker doc = none ∧ findSub endMarker doc = none) ∨
      (∃ si ei, findSub startMarker doc = some si ∧ findSub endMarker doc = some ei ∧
        si < ei)) :
    spliceReadme (spliceReadme doc C) C = spliceReadme doc C := by
  have hEC : ∀ i, occursAt endMarker C i = false := findSub_none hC
  rcases hdoc with ⟨hs, he⟩ | ⟨si, ei, hs, he, hord⟩
  · have h1 : spliceReadme doc C
        = (doc ++ ['\n', '\n']) ++
            (startMarker ++ ('\n' :: (C ++ ('\n' :: (endMarker ++ []))))) := by
      unfold spliceReadme
      rw [hs, he]
      simp [List.append_assoc]
    have hSP := occursAt_append_nl2 doc (by decide : startMarker ≠ []) sm_no_nl
      (findSub_none hs)
    have hEP := occursAt_append_nl2 doc em_ne_nil em_no_nl (findSub_none he)
    rw [h1]
    exact splice_marked_fixed (doc ++ ['\n', '\n']) C [] hSP hEP hEC
  · rcases findSub_some hs with ⟨hoccS, hminS⟩
    rcases findSub_some he with ⟨hoccE, hminE⟩
    have h1 : spliceReadme doc C
        = (doc.take si) ++ (startMarker ++ ('\n' :: (C ++ ('\n' ::
            (endMarker ++ doc.drop (ei + endMarker.length)))))) := by
      unfold spliceReadme
      rw [hs, he]
      simp [List.append_assoc]
    have hSP : ∀ i, occursAt startMarker (doc.take si) i = false := by
      intro i
      cases hcase : occursAt startMarker (doc.take si) i
      · rfl
      exfalso
      have hb := occursAt_bound (by decide) hcase
      rw [List.length_take] at hb
      have hb2 := le_trans hb (Nat.min_le_left si doc.length)
      have hocc := occursAt_take_elim hcase
      have hSpos : 0 < startMarker.length := by decide
      have hbad := hminS i (by omega)
      rw [hocc] at hbad
      cases hbad
    have hEP : ∀ i, occursAt endMarker (doc.take si) i = false := by
      intro i
      cases hcase : occursAt endMarker (doc.take si) i
      · rfl
      exfalso
      have hb := occursAt_bound em_ne_nil hcase
      rw [List.length_take] at hb
      have hb2 := le_trans hb (Nat.min_le_left si doc.length)
      have hocc := occursAt_take_elim hcase
      have hEpos : 0 < endMarker.length := by decide
      have hbad := hminE i (by omega)
      rw [hocc] at hbad
      cases hbad
    rw [h1]
    exact splice_marked_fixed (doc.take si) C (doc.drop (ei + endMarker.length)) hSP hEP hEC

theorem claim_C2_witness :
    (findSub endMarker ['x'] = none ∧ findSub startMarker [] = none ∧
      findSub endMarker [] = none) ∧
    spliceReadme (spliceReadme [] ['x']) ['x'] = spliceReadme [] ['x'] :=
  ⟨⟨by decide, by decide, by decide⟩,
    claim_C2_amended_idempotent [] ['x'] (by decide) (Or.inl ⟨by decide, by decide⟩)⟩
